import Mathlib

/-!
Shallow embedding of the `sem` shared-expenses engine (src/sem.c) and
verification of its specification claims.

Conventions of the embedding:

* `time_t` values and monetary cents are modelled as `ℤ` (the source uses
  64-bit `time_t` and `int` cents; all quantities exercised here are far from
  the overflow range, where C signed overflow would be undefined anyway).
* The Berkeley-DB interval stores (`struct tidbs`) are modelled as a
  `List Ti` in global write order: `ti_insert` appends, and re-writing a
  record re-appends it, which mirrors how the DB_DUP secondary index chains
  records per owner in write order.
* The temporary `whodb` hash set of currently present people is modelled as
  a strictly sorted `List ℕ`; the hash iteration order of the C library is
  unspecified, so the model canonicalizes to ascending order.
* The debt-graph hash DB `gedb` is modelled as an association list from the
  canonical (low id, high id) pair to the stored signed cents.
* Paths on which the C program aborts (`CBUG`) or runs into undefined
  behaviour (out-of-bounds reads, division by zero, uninitialized reads)
  are modelled as `Option.none`.
-/

/-- Sentinel `+∞` timestamp: `tinf = LONG_MAX` in the source. -/
def tinf : ℤ := 2 ^ 63 - 1

/-- Sentinel `-∞` timestamp: `mtinf = LONG_MIN` in the source. -/
def mtinf : ℤ := -(2 ^ 63)

/-- The one-cent payer tip constant, `#define PAYER_TIP 1`. -/
def PAYER_TIP : ℤ := 1

/-- A stored labelled time interval, `struct ti { time_t min, max; unsigned who; }`. -/
structure Ti where
  min : ℤ
  max : ℤ
  who : ℕ
deriving DecidableEq, Repr

/-- A sweep event, `struct ti_split_i { time_t ts; int max; unsigned who; }`.
The `max` field is 0 for an event opening an interval at its `min` endpoint
and 1 for an event closing it at its `max` endpoint. -/
structure TiSplitI where
  ts : ℤ
  max : ℤ
  who : ℕ
deriving DecidableEq, Repr

/-- A finished split, `struct ti_split_f`: a sub-interval of the billing
window together with the set of people present on it (`entries`, held
ascending; `entries_l` of the source is `entries.length`). -/
structure TiSplitF where
  min : ℤ
  max : ℤ
  entries : List ℕ
deriving DecidableEq, Repr

/-- Interval query `ti_intersect` (src/sem.c:537): scans the store and
collects every interval `tmp` with `tmp.max >= start_ts && tmp.min < end_ts`.
The C walks the max-ordered secondary index from `start_ts` upward and
re-checks this filter on every record, so the matched set is exactly the
filter of the store. -/
def tiIntersect (store : List Ti) (startTs endTs : ℤ) : List Ti :=
  match store with
  | [] => []
  | tmp :: rest =>
      if startTs ≤ tmp.max ∧ tmp.min < endTs then
        tmp :: tiIntersect rest startTs endTs
      else
        tiIntersect rest startTs endTs

/-- Point query `ti_pintersect` (src/sem.c:576): `ti_intersect(dbs, matched, ts, ts)`. -/
def tiPintersect (store : List Ti) (ts : ℤ) : List Ti :=
  tiIntersect store ts ts

/-- Comparator `ti_split_i_cmp` (src/sem.c:582): ascending by `ts`, ties
broken ascending by the `max` flag. -/
def tiSplitICmp (a b : TiSplitI) : ℤ :=
  if a.ts < b.ts then -1
  else if b.ts < a.ts then 1
  else if a.max < b.max then -1
  else if b.max < a.max then 1
  else 0

/-- Boolean order corresponding to `ti_split_i_cmp`, used by the model's sort. -/
def tiSplitILe (a b : TiSplitI) : Bool :=
  decide (tiSplitICmp a b ≤ 0)

/-- Insertion into a list sorted by `le`: the model of `qsort` over the
sweep events. `qsort` leaves the relative order of comparator-equal
elements unspecified; events equal under `ti_split_i_cmp` share both `ts`
and the open/close flag, and their processing order affects neither the
emitted splits nor success of the sweep, only which single final event is
left unapplied in the scratch `whodb` residue (which the engine drops
before its next use). The model therefore fixes one order. -/
def insertLe (le : α → α → Bool) (x : α) : List α → List α
  | [] => [x]
  | y :: ys => if le y x then y :: insertLe le x ys else x :: y :: ys

/-- Sort by repeated insertion (stable). -/
def sortLe (le : α → α → Bool) : List α → List α
  | [] => []
  | x :: xs => insertLe le x (sortLe le xs)

/-- The two sweep events generated for each matched interval
(src/sem.c:606-618): `(min, 0, who)` then `(max, 1, who)`. -/
def tiSplitEvents (matched : List Ti) : List TiSplitI :=
  matched.flatMap fun m => [⟨m.min, 0, m.who⟩, ⟨m.max, 1, m.who⟩]

/-- Insertion `who_insert` (src/sem.c:415): a DB put, i.e. idempotent set
insertion, kept ascending in the model. -/
def whoInsert (w : ℕ) : List ℕ → List ℕ
  | [] => [w]
  | x :: xs =>
      if w < x then w :: x :: xs
      else if w = x then x :: xs
      else x :: whoInsert w xs

/-- Removal `who_remove` (src/sem.c:431): `whodb->del` of an absent key
returns `DB_NOTFOUND`, which trips `CBUG` and aborts; modelled as `none`. -/
def whoRemove (w : ℕ) : List ℕ → Option (List ℕ)
  | [] => none
  | x :: xs =>
      if w = x then some xs
      else
        match whoRemove w xs with
        | none => none
        | some ys => some (x :: ys)

/-- One update of the present set by a sweep event (src/sem.c:630-633):
a close event (`max = 1`) removes its owner, an open event inserts it. -/
def whoStep (s : List ℕ) (e : TiSplitI) : Option (List ℕ) :=
  if e.max = 1 then whoRemove e.who s else some (whoInsert e.who s)

/-- The sweep walk of `ti_split` (src/sem.c:625-655): for `i` from `0` to
`2m-2` the event `i` updates the present set, and when the timestamps of
events `i` and `i+1` differ a split `(ts_i, ts_{i+1}, present set)` is
emitted. The final event is never applied. Returns the emitted splits and
the residue left in `whodb`. -/
def tiSplitWalk : List TiSplitI → List ℕ → Option (List TiSplitF × List ℕ)
  | [], s => some ([], s)
  | [_], s => some ([], s)
  | e1 :: e2 :: rest, s =>
      match whoStep s e1 with
      | none => none
      | some s' =>
          match tiSplitWalk (e2 :: rest) s' with
          | none => none
          | some (splits, sEnd) =>
              if e1.ts = e2.ts then some (splits, sEnd)
              else some (⟨e1.ts, e2.ts, s'⟩ :: splits, sEnd)

/-- Splitter `ti_split` (src/sem.c:599): builds the event array, sorts it
with `ti_split_i_cmp`, drops `whodb` and walks the events. With zero
matched intervals the loop bound `matches_l * 2 - 1` underflows (`size_t`
arithmetic) and the zero-length event array is read out of bounds;
that undefined behaviour is modelled as `none`. -/
def tiSplit (matched : List Ti) : Option (List TiSplitF × List ℕ) :=
  if matched.isEmpty then none
  else tiSplitWalk (sortLe tiSplitILe (tiSplitEvents matched)) []

/-- Clipping of the matched intervals to the query window (src/sem.c:722-732):
`min ← max(min, start_ts)`, `max ← min(max, end_ts)`. -/
def clipMatches (matched : List Ti) (startTs endTs : ℤ) : List Ti :=
  matched.map fun m => ⟨max m.min startTs, min m.max endTs, m.who⟩

/-- Per-person cost of one split (src/sem.c:744):
`cost = PAYER_TIP + interval * value / (entries_l * bill_interval)` with C
integer division (truncation toward zero). The tip is added
unconditionally. -/
def payCost (interval value entries billInterval : ℤ) : ℤ :=
  PAYER_TIP + Int.tdiv (interval * value) (entries * billInterval)

/-- Modelled from the spec: the cost formula the specification prescribes,
`cost = V·(b−a) / (n·(W₁−W₀)) + (V·(b−a) mod (n·(W₁−W₀)) ? 1 : 0)` with
truncating division — the one-cent tip only on a non-zero remainder. -/
def specPayCost (interval value entries billInterval : ℤ) : ℤ :=
  Int.tdiv (interval * value) (entries * billInterval) +
    if Int.tmod (interval * value) (entries * billInterval) = 0 then 0 else 1

/-- An unordered debt-graph key: `ge_get`/`ge_add` store the pair with the
smaller id first (src/sem.c:335-341). -/
def pairKey (id0 id1 : ℕ) : ℕ × ℕ :=
  if id0 > id1 then (id1, id0) else (id0, id1)

/-- The debt graph `gedb`, an association list from canonical pairs to the
stored signed cents. -/
def Graph : Type := List ((ℕ × ℕ) × ℤ)

instance : DecidableEq Graph := by
  unfold Graph
  infer_instance

/-- Lookup of a stored edge value; a DB get that misses returns nothing. -/
def graphLookup (k : ℕ × ℕ) : Graph → Option ℤ
  | [] => none
  | (k', v) :: rest => if k = k' then some v else graphLookup k rest

/-- A DB put: overwrite the entry in place if the key exists, else append. -/
def graphPut (k : ℕ × ℕ) (v : ℤ) : Graph → Graph
  | [] => [(k, v)]
  | (k', v') :: rest =>
      if k = k' then (k, v) :: rest else (k', v') :: graphPut k v rest

/-- Signed edge read `ge_get` (src/sem.c:325): canonicalize the pair, read
the stored value (0 when absent) and negate it when the query was made in
descending id order. -/
def geGet (g : Graph) (id0 id1 : ℕ) : ℤ :=
  match graphLookup (pairKey id0 id1) g with
  | none => 0
  | some ret => if id0 > id1 then -ret else ret

/-- Signed edge update `ge_add` (src/sem.c:355): read the current signed
value, then store `-(cvalue + value)` when `id_from > id_to` and
`cvalue + value` otherwise, at the canonical key. -/
def geAdd (g : Graph) (idFrom idTo : ℕ) (value : ℤ) : Graph :=
  let cvalue := geGet g idFrom idTo
  let stored := if idFrom > idTo then -cvalue - value else cvalue + value
  graphPut (pairKey idFrom idTo) stored g

/-- The engine's mutable state: the person registry (id `i` carries the i-th name),
the presence store `pdbs`, the obligation store `npdbs`, the debt graph
`gedb` and the scratch present-set `whodb`. -/
structure EngineState where
  names : List String
  pdbs : List Ti
  npdbs : List Ti
  gedb : Graph
  whodb : List ℕ
deriving DecidableEq

/-- Charges of one split (src/sem.c:746-748): every entry other than the
payer is charged `cost` via `ge_add(id, who, cost)`. -/
def chargeSplit (g : Graph) (payer : ℕ) (cost : ℤ) : List ℕ → Graph
  | [] => g
  | who :: rest =>
      if who ≠ payer then chargeSplit (geAdd g payer who cost) payer cost rest
      else chargeSplit g payer cost rest

/-- The allocator loop of `process_pay` (src/sem.c:740-749): for each split
compute `cost` and charge the non-payer entries. A split whose divisor
`entries_l * bill_interval` is zero makes the source divide by zero
(undefined behaviour), modelled as `none`. -/
def paySplitsCharge (g : Graph) (payer : ℕ) (value billInterval : ℤ) :
    List TiSplitF → Option Graph
  | [] => some g
  | f :: rest =>
      if (f.entries.length : ℤ) * billInterval = 0 then none
      else
        paySplitsCharge
          (chargeSplit g payer
            (payCost (f.max - f.min) value f.entries.length billInterval) f.entries)
          payer value billInterval rest

/-- Record handler `process_pay` (src/sem.c:705): intersect the presence
store with the billing window, clip the matched intervals to it, split, and
charge each split's non-payer occupants. Only `gedb` and the scratch
`whodb` are written; the registry and both interval stores are only read. -/
def processPay (s : EngineState) (id : ℕ) (value startTs endTs : ℤ) :
    Option EngineState :=
  match tiSplit (clipMatches (tiIntersect s.pdbs startTs endTs) startTs endTs) with
  | none => none
  | some (splits, whoEnd) =>
      match paySplitsCharge s.gedb id value (endTs - startTs) splits with
      | none => none
      | some g => some { s with gedb := g, whodb := whoEnd }

/-- The split sequence a `PAY` over `(startTs, endTs)` produces
(src/sem.c:720-735), exposed on its own for the split-partition claims. -/
def paySplits (pdbs : List Ti) (startTs endTs : ℤ) : Option (List TiSplitF) :=
  Option.map Prod.fst (tiSplit (clipMatches (tiIntersect pdbs startTs endTs) startTs endTs))

/-- Charges of `process_buy` (src/sem.c:792-794): each matched obligation
interval's owner other than the payer is charged `dvalue`. -/
def buyCharge (g : Graph) (payer : ℕ) (dvalue : ℤ) : List Ti → Graph
  | [] => g
  | m :: rest =>
      if m.who ≠ payer then buyCharge (geAdd g payer m.who dvalue) payer dvalue rest
      else buyCharge g payer dvalue rest

/-- Record handler `process_buy` (src/sem.c:776): point-intersect the
obligation store at the record timestamp and charge every matched owner
except the payer with `dvalue = value / matches_l + PAYER_TIP`. The source
performs the division without checking `matches_l`, so zero matched
intervals divide by zero (undefined behaviour), modelled as `none`. -/
def processBuy (s : EngineState) (id : ℕ) (value ts : ℤ) : Option EngineState :=
  if (tiPintersect s.npdbs ts).length = 0 then none
  else
    some { s with
      gedb :=
        buyCharge s.gedb id
          (Int.tdiv value ((tiPintersect s.npdbs ts).length : ℤ) + PAYER_TIP)
          (tiPintersect s.npdbs ts) }

/-- Removal of the most recently written record of an owner from the store
(the record the `DB_PREV` cursor step of `ti_finish_last` lands on). -/
def removeLastOf (store : List Ti) (id : ℕ) : List Ti :=
  (List.eraseP (fun ti => decide (ti.who = id)) store.reverse).reverse

/-- Closer `ti_finish_last` (src/sem.c:493): the cursor walks the duplicate
chain of `id` in the id-keyed secondary index, keeping the last duplicate,
steps back to it and overwrites its record with `max = end`. The source
never checks that the located interval is open. If the owner has no record
at all, the loop body never runs, the struct written back is uninitialized
stack memory and (with a non-empty store) the record overwritten belongs to
a different owner — undefined behaviour, modelled as `none`; with an empty
store the `c_pget` fails and `CBUG` aborts, also `none`. -/
def tiFinishLast (store : List Ti) (id : ℕ) (endTs : ℤ) : Option (List Ti) :=
  match (store.filter fun ti => ti.who = id).getLast? with
  | some ti => some (removeLastOf store id ++ [⟨ti.min, endTs, ti.who⟩])
  | none => none

/-- Interval insertion `ti_insert` (src/sem.c:473): a put of a fresh record,
appended to the store. -/
def tiInsert (store : List Ti) (id : ℕ) (startTs endTs : ℤ) : List Ti :=
  store ++ [⟨startTs, endTs, id⟩]

/-- Dyadic rounding workhorse for the binary32 model: round the positive
rational `n · 2^s / d` to 24 significant bits with IEEE round-to-nearest,
ties to even, returning mantissa and binary exponent `(m, e)` for the value
`m · 2^e`. The exponent is located by scanning the (ample) range
`-80 … 80`. -/
def f32round (n : ℕ) (s : ℤ) (d : ℕ) : ℕ × ℤ :=
  let inRange := fun (e : ℤ) =>
    d * 2 ^ (e - s).toNat ≤ n * 2 ^ (s - e).toNat ∧
      n * 2 ^ (s - (e + 1)).toNat < d * 2 ^ (e + 1 - s).toNat
  match ((List.range 161).map fun i => (i : ℤ) - 80).find? (fun e => decide (inRange e)) with
  | none => (0, 0)
  | some e =>
      let t := s + 23 - e
      let num := n * 2 ^ t.toNat
      let den := d * 2 ^ (-t).toNat
      let m := num / den
      let r := num % den
      let mantissa :=
        if 2 * r < den then m
        else if den < 2 * r then m + 1
        else if m % 2 = 0 then m else m + 1
      (mantissa, e - 23)

/-- Currency input `read_currency` (src/sem.c:161) on a non-negative
two-decimal amount of `c` cents: the token parses with `strtof` to the
binary32 float nearest `c / 100` (glibc's `strtof` is correctly rounded),
is multiplied by `100.0f` in binary32 arithmetic, and the product is
truncated toward zero by the cast to `int`. -/
def readCurrency (c : ℕ) : ℤ :=
  let x := f32round c 0 100
  let y := f32round (100 * x.1) x.2 1
  if 0 ≤ y.2 then (y.1 * 2 ^ y.2.toNat : ℤ) else ((y.1 / 2 ^ (-y.2).toNat : ℕ) : ℤ)

/-- Modelled from the spec: the value the spec says `read_currency` must
store for an amount of `c` cents given with two decimals: exactly
`⌊(c/100)·100⌋ = c` integer cents. -/
def specReadCurrency (c : ℕ) : ℤ := (c : ℤ)

/-! Helper lemmas. -/

theorem mem_insertLe {α : Type} (le : α → α → Bool) (x : α) (l : List α) (z : α) :
    z ∈ insertLe le x l ↔ z = x ∨ z ∈ l := by
  induction l with
  | nil => simp [insertLe]
  | cons y ys ih =>
      simp only [insertLe]
      by_cases h : le y x = true
      · rw [if_pos h]
        simp only [List.mem_cons, ih]
        tauto
      · rw [if_neg h]
        simp only [List.mem_cons]

theorem pairwise_insertLe {α : Type} {le : α → α → Bool}
    (htot : ∀ a b, le a b = true ∨ le b a = true)
    (htrans : ∀ a b c, le a b = true → le b c = true → le a c = true)
    (x : α) (l : List α) (hl : l.Pairwise fun a b => le a b = true) :
    (insertLe le x l).Pairwise fun a b => le a b = true := by
  induction l with
  | nil => simp [insertLe]
  | cons y ys ih =>
      rcases List.pairwise_cons.mp hl with ⟨hy, hys⟩
      simp only [insertLe]
      by_cases h : le y x = true
      · rw [if_pos h]
        refine List.pairwise_cons.mpr ⟨?_, ih hys⟩
        intro z hz
        rcases (mem_insertLe le x ys z).mp hz with rfl | hz
        · exact h
        · exact hy z hz
      · have hxy : le x y = true := (htot x y).resolve_right fun c => h c
        rw [if_neg h]
        refine List.pairwise_cons.mpr ⟨?_, hl⟩
        intro z hz
        rcases List.mem_cons.mp hz with rfl | hz
        · exact hxy
        · exact htrans x y z hxy (hy z hz)

theorem pairwise_sortLe {α : Type} {le : α → α → Bool}
    (htot : ∀ a b, le a b = true ∨ le b a = true)
    (htrans : ∀ a b c, le a b = true → le b c = true → le a c = true)
    (l : List α) : (sortLe le l).Pairwise fun a b => le a b = true := by
  induction l with
  | nil => simp [sortLe]
  | cons x xs ih => exact pairwise_insertLe htot htrans x (sortLe le xs) ih

theorem tiSplitILe_total (a b : TiSplitI) : tiSplitILe a b = true ∨ tiSplitILe b a = true := by
  simp only [tiSplitILe, tiSplitICmp, decide_eq_true_eq]
  split_ifs <;> omega

theorem tiSplitILe_trans (a b c : TiSplitI) (hab : tiSplitILe a b = true)
    (hbc : tiSplitILe b c = true) : tiSplitILe a c = true := by
  simp only [tiSplitILe, tiSplitICmp, decide_eq_true_eq] at hab hbc ⊢
  split_ifs at hab hbc ⊢ <;> omega

theorem tiSplitILe_iff (a b : TiSplitI) :
    tiSplitILe a b = true ↔ a.ts < b.ts ∨ (a.ts = b.ts ∧ a.max ≤ b.max) := by
  simp only [tiSplitILe, tiSplitICmp, decide_eq_true_eq]
  split_ifs <;> omega

theorem mem_tiIntersect (store : List Ti) (startTs endTs : ℤ) (iv : Ti) :
    iv ∈ tiIntersect store startTs endTs ↔
      iv ∈ store ∧ startTs ≤ iv.max ∧ iv.min < endTs := by
  induction store with
  | nil => simp [tiIntersect]
  | cons tmp rest ih =>
      by_cases h : startTs ≤ tmp.max ∧ tmp.min < endTs
      · simp only [tiIntersect, if_pos h, List.mem_cons, ih]
        constructor
        · rintro (rfl | ⟨hm, hc⟩)
          · exact ⟨Or.inl rfl, h⟩
          · exact ⟨Or.inr hm, hc⟩
        · rintro ⟨rfl | hm, hc⟩
          · exact Or.inl rfl
          · exact Or.inr ⟨hm, hc⟩
      · simp only [tiIntersect, if_neg h, List.mem_cons, ih]
        constructor
        · rintro ⟨hm, hc⟩
          exact ⟨Or.inr hm, hc⟩
        · rintro ⟨rfl | hm, hc⟩
          · exact absurd hc h
          · exact ⟨hm, hc⟩

theorem graphLookup_graphPut_self (k : ℕ × ℕ) (v : ℤ) (g : Graph) :
    graphLookup k (graphPut k v g) = some v := by
  induction g with
  | nil => simp [graphPut, graphLookup]
  | cons e rest ih =>
      obtain ⟨k', v'⟩ := e
      by_cases h : k = k'
      · simp [graphPut, graphLookup, h]
      · simp [graphPut, graphLookup, h, ih]

theorem graphPut_graphPut_self (k : ℕ × ℕ) (v₁ v₂ : ℤ) (g : Graph) :
    graphPut k v₂ (graphPut k v₁ g) = graphPut k v₂ g := by
  induction g with
  | nil => simp [graphPut]
  | cons e rest ih =>
      obtain ⟨k', v'⟩ := e
      by_cases h : k = k'
      · simp [graphPut, h]
      · simp [graphPut, h, ih]

theorem geGet_geAdd_self (g : Graph) (a b : ℕ) (v : ℤ) :
    geGet (geAdd g a b v) a b = geGet g a b + v := by
  by_cases h : a > b
  · simp [geAdd, geGet, graphLookup_graphPut_self, h]
    ring
  · simp [geAdd, geGet, graphLookup_graphPut_self, h]

theorem geAdd_geAdd_self (g : Graph) (a b : ℕ) (v₁ v₂ : ℤ) :
    geAdd (geAdd g a b v₁) a b v₂ = geAdd g a b (v₁ + v₂) := by
  have h1 := geGet_geAdd_self g a b v₁
  by_cases h : a > b
  · simp only [geAdd, if_pos h] at h1 ⊢
    rw [h1, graphPut_graphPut_self]
    congr 1
    ring
  · simp only [geAdd, if_neg h] at h1 ⊢
    rw [h1, graphPut_graphPut_self]
    congr 1
    ring

/-! Claim theorems. -/

/-- C1, counterexample. At the spec's own two-person scenario — a 10000-cent
bill over a 30-unit window with one split of 2 occupants covering it — the
division `30·10000 / (2·30) = 5000` is exact, yet the source's cost
expression (src/sem.c:744) still adds the unconditional `PAYER_TIP` and
charges 5001, while the claimed rule yields 5000. -/
theorem payCost_exact_division_counterexample :
    payCost 30 10000 2 30 = 5001 ∧ specPayCost 30 10000 2 30 = 5000 ∧
      payCost 30 10000 2 30 ≠ specPayCost 30 10000 2 30 := by
  decide

/-- C1, amended. The per-person cost the code applies equals the claimed
cost exactly when the division `V·(b−a) / (n·(W₁−W₀))` leaves a non-zero
remainder; when the division is exact the code charges one cent more: the
one-cent payer tip is added unconditionally, not only on a non-zero
remainder. -/
theorem payCost_eq_specPayCost_add_exact_tip :
    ∀ interval value entries billInterval : ℤ,
      payCost interval value entries billInterval =
        specPayCost interval value entries billInterval +
          (if Int.tmod (interval * value) (entries * billInterval) = 0 then 1 else 0) := by
  intro i v n b
  simp only [payCost, specPayCost, PAYER_TIP]
  by_cases h : Int.tmod (i * v) (n * b) = 0
  · rw [if_pos h, if_pos h]
    ring
  · rw [if_neg h, if_neg h]
    ring

/-- C2, failing-input evaluation. With presence store `[0,10]` for person 0
(obligation store irrelevant: `process_pay` never reads it) and billing
window `[0,100]`, the split sequence the code emits is the single split
`[0,10]` with occupant 0: the empty suffix `[10,100)` is not refilled from
the obligation store, so the splits do not partition the window. Moreover,
an interior presence gap produces an empty-occupant split whose cost
computation divides by zero, modelled as `none`. -/
theorem paySplits_no_gap_fill :
    paySplits [⟨0, 10, 0⟩] 0 100 = some [⟨0, 10, [0]⟩] ∧
      processPay ⟨["a"], [⟨0, 10, 0⟩, ⟨20, 30, 0⟩], [], [], []⟩ 0 100 0 30 = none := by
  decide

/-- C3, counterexample. For two events at the same timestamp 5, the CLOSE
event (`max` flag 1) sorts after the OPEN event (`max` flag 0):
`ti_split_i_cmp` returns 1 on (CLOSE, OPEN) and -1 on (OPEN, CLOSE),
so ties are broken OPEN before CLOSE, not CLOSE before OPEN. -/
theorem tiSplitICmp_close_after_open_counterexample :
    tiSplitICmp ⟨5, 1, 0⟩ ⟨5, 0, 1⟩ = 1 ∧ tiSplitICmp ⟨5, 0, 1⟩ ⟨5, 1, 0⟩ = -1 := by
  decide

/-- C3, amended. The comparator orders events ascending by timestamp and
breaks timestamp ties by the `max` event-kind flag ascending, i.e. OPEN
(flag 0) before CLOSE (flag 1); consequently the sorted event array of the
sweep is ascending in that lexicographic order. -/
theorem tiSplitICmp_orders_open_before_close :
    (∀ a b : TiSplitI,
        tiSplitICmp a b < 0 ↔ a.ts < b.ts ∨ (a.ts = b.ts ∧ a.max < b.max)) ∧
      ∀ evs : List TiSplitI,
        (sortLe tiSplitILe evs).Pairwise fun a b =>
          a.ts < b.ts ∨ (a.ts = b.ts ∧ a.max ≤ b.max) := by
  constructor
  · intro a b
    simp only [tiSplitICmp]
    split_ifs <;> omega
  · intro evs
    have h := pairwise_sortLe tiSplitILe_total tiSplitILe_trans evs
    exact h.imp fun hab => (tiSplitILe_iff _ _).mp hab

/-- C4, counterexample. The interval `[5,10]` contains the point 5
(`min ≤ 5 ≤ max`), yet the point query at 5 returns nothing, because the
filter of `ti_intersect` at `(5,5)` demands `min < 5`. -/
theorem tiPintersect_left_endpoint_counterexample :
    tiPintersect [⟨5, 10, 0⟩] 5 = [] ∧
      (⟨5, 10, 0⟩ : Ti).min ≤ 5 ∧ (5 : ℤ) ≤ (⟨5, 10, 0⟩ : Ti).max := by
  decide

/-- C4, amended. `ti_intersect(win_min, win_max)` yields exactly the
intervals with `max ≥ win_min` and `min < win_max` (as claimed), but a
point query at `t` therefore matches exactly the intervals with
`min < t ≤ max`: an interval starting exactly at `t` is excluded. -/
theorem tiIntersect_characterization :
    (∀ (store : List Ti) (winMin winMax : ℤ) (iv : Ti),
        iv ∈ tiIntersect store winMin winMax ↔
          iv ∈ store ∧ winMin ≤ iv.max ∧ iv.min < winMax) ∧
      ∀ (store : List Ti) (t : ℤ) (iv : Ti),
        iv ∈ tiPintersect store t ↔ iv ∈ store ∧ iv.min < t ∧ t ≤ iv.max := by
  constructor
  · exact fun store a b iv => mem_tiIntersect store a b iv
  · intro store t iv
    rw [tiPintersect, mem_tiIntersect]
    tauto

/-- C5, failing input. For the two-decimal amount `0.53` the float pipeline
of `read_currency` — `strtof` to the nearest binary32, multiplication by
`100.0f` in binary32, truncating cast to `int` — stores 52 cents, not the
53 the claim (`⌊amount·100⌋`) requires. -/
theorem readCurrency_float_loss :
    readCurrency 53 = 52 ∧ specReadCurrency 53 = 53 ∧
      readCurrency 53 ≠ specReadCurrency 53 := by
  decide

/-- C6, failing input. An owner whose only interval `[1,2]` is already
closed (`max ≠ +∞`) still gets it silently re-closed to `[1,3]` by
`ti_finish_last`: the function locates the owner's most recently written
record without ever checking it is open, and does not abort. -/
theorem tiFinishLast_closed_interval_no_abort :
    tiFinishLast [⟨1, 2, 0⟩] 0 3 = some [⟨1, 3, 0⟩] ∧
      (∀ ti ∈ [(⟨1, 2, 0⟩ : Ti)], ti.max ≠ tinf) := by
  decide

/-- C7. Reading after writing the same directed edge is additive:
`add(a→b, v)` leaves `get(a→b) = old + v`, for every pair of ids and every
value; and two `TRANSFER`s of `v₁` and `v₂` over the same ordered pair
leave exactly the debt graph of a single `TRANSFER` of `v₁ + v₂`. -/
theorem geAdd_additive_and_transfer_merge :
    (∀ (g : Graph) (a b : ℕ) (v : ℤ), geGet (geAdd g a b v) a b = geGet g a b + v) ∧
      ∀ (g : Graph) (a b : ℕ) (v₁ v₂ : ℤ),
        geAdd (geAdd g a b v₁) a b v₂ = geAdd g a b (v₁ + v₂) := by
  exact ⟨geGet_geAdd_self, geAdd_geAdd_self⟩

/-- C8, failing input. A `BUY` by person 0 at time 5 while the obligation
store holds only `[10,+∞)` matches zero intervals; `process_buy` computes
`value / matches_l` with `matches_l = 0` without any check, a division by
zero (modelled as `none`) — the claimed guarded fatal error does not
exist. -/
theorem processBuy_zero_matches_divides_by_zero :
    tiPintersect [⟨10, tinf, 0⟩] 5 = [] ∧
      processBuy ⟨["alice"], [], [⟨10, tinf, 0⟩], [], []⟩ 0 1000 5 = none := by
  decide

/-- C9, failing input. A `PAY` over the empty window `[5,5]` with no
matching presence interval reaches `ti_split` with `matches_l = 0`; the
loop bound `matches_l * 2 - 1` underflows in `size_t` arithmetic and the
zero-length event array is read out of bounds (undefined behaviour,
modelled as `none`) instead of the claimed clean no-op. When at least one
interval matches, the same empty window does produce no splits and leave
the debt graph unchanged, as the second conjunct shows on a concrete
state. -/
theorem processPay_empty_window_underflow :
    processPay ⟨["alice"], [], [], [], []⟩ 0 1000 5 5 = none ∧
      processPay ⟨["alice"], [⟨0, 10, 0⟩], [], [], []⟩ 0 1000 5 5 =
        some ⟨["alice"], [⟨0, 10, 0⟩], [], [], [0]⟩ := by
  decide

/-- C10. Whenever `process_pay` or `process_buy` completes, the person
registry and both interval stores are exactly what they were before the
record: the handlers write only the debt graph `gedb` (and, for `PAY`, the
scratch present-set `whodb`). -/
theorem processPay_processBuy_frame :
    (∀ (s s' : EngineState) (id : ℕ) (value startTs endTs : ℤ),
        processPay s id value startTs endTs = some s' →
          s'.names = s.names ∧ s'.pdbs = s.pdbs ∧ s'.npdbs = s.npdbs) ∧
      ∀ (s s' : EngineState) (id : ℕ) (value ts : ℤ),
        processBuy s id value ts = some s' →
          s'.names = s.names ∧ s'.pdbs = s.pdbs ∧ s'.npdbs = s.npdbs := by
  constructor
  · intro s s' id value startTs endTs h
    unfold processPay at h
    split at h
    · exact absurd h (by simp)
    · split at h
      · exact absurd h (by simp)
      · obtain rfl : _ = s' := Option.some_injective _ h
        exact ⟨rfl, rfl, rfl⟩
  · intro s s' id value ts h
    unfold processBuy at h
    split at h
    · exact absurd h (by simp)
    · obtain rfl : _ = s' := Option.some_injective _ h
      exact ⟨rfl, rfl, rfl⟩

/-- C10, witness. A concrete two-person `PAY` and a concrete `BUY` that
complete, with the frame conclusions obtained from the theorem itself. -/
theorem processPay_processBuy_frame_witness :
    (processPay ⟨["a", "b"], [⟨0, 30, 0⟩, ⟨0, 30, 1⟩], [], [], []⟩ 0 10000 0 30 =
        some ⟨["a", "b"], [⟨0, 30, 0⟩, ⟨0, 30, 1⟩], [], [((0, 1), 5001)], [0]⟩ ∧
      processBuy ⟨["a", "b"], [], [⟨0, tinf, 0⟩, ⟨0, tinf, 1⟩], [], []⟩ 0 1000 5 =
        some ⟨["a", "b"], [], [⟨0, tinf, 0⟩, ⟨0, tinf, 1⟩], [((0, 1), 501)], []⟩) ∧
      ((⟨["a", "b"], [⟨0, 30, 0⟩, ⟨0, 30, 1⟩], [], [((0, 1), 5001)], [0]⟩ : EngineState).names =
          (⟨["a", "b"], [⟨0, 30, 0⟩, ⟨0, 30, 1⟩], [], [], []⟩ : EngineState).names ∧
        (⟨["a", "b"], [⟨0, 30, 0⟩, ⟨0, 30, 1⟩], [], [((0, 1), 5001)], [0]⟩ : EngineState).pdbs =
          (⟨["a", "b"], [⟨0, 30, 0⟩, ⟨0, 30, 1⟩], [], [], []⟩ : EngineState).pdbs ∧
        (⟨["a", "b"], [⟨0, 30, 0⟩, ⟨0, 30, 1⟩], [], [((0, 1), 5001)], [0]⟩ : EngineState).npdbs =
          (⟨["a", "b"], [⟨0, 30, 0⟩, ⟨0, 30, 1⟩], [], [], []⟩ : EngineState).npdbs) :=
  ⟨⟨by decide, by decide⟩,
    processPay_processBuy_frame.1 _ _ 0 10000 0 30 (by decide)⟩
